import Mathlib

/-!
Verification of the template-interpolation core (`core/interpolation/`):
the lexer (`lexer.py`), the AST node model (`nodes.py`), the interpreter
(`interpreter.py`) and the engine facade (`interpolator.py`).

Strings are modelled as `List Char` inside the lexer (the Python code walks
the string by index); the public node fields and the rendered content are
Lean `String`s.  Handlers are external collaborators: a handler is modelled
as a pure function returning `Except Unit (Option String)` where
`Except.error` stands for a raised exception, `Option.none` for Python's
`None` (the interpreter substitutes `""`), and `Option.some s` for a value
whose `str()` is `s`.
-/

/-- AST nodes (`nodes.py`).  `TextNode(value)` stores its value, and its
inherited `raw` field equals that value (`super().__init__(value)`).
`PlaceholderNode(raw, name, args)` stores the original source span, the
placeholder name, and the argument groups: a list of lists of nodes, one
inner list per semicolon-separated argument. -/
inductive Node where
  | text (value : String)
  | placeholder (raw : String) (name : String) (args : List (List Node))

/-- The `raw` field of a node: a `TextNode`'s raw is its value, a
`PlaceholderNode`'s raw is the stored source span. -/
def Node.raw : Node → String
  | .text v => v
  | .placeholder r _ _ => r

/-- The `value` field of a `TextNode`; placeholder nodes have no value. -/
def Node.value : Node → Option String
  | .text v => some v
  | .placeholder _ _ _ => none

/-- Constant `ESCAPE_CHAR` from `lexer.py`. -/
def ESCAPE_CHAR : Char := '\\'

/-- The set of characters that may follow a backslash to form an escape
sequence in `lex` (`lexer.py` line 45): `{ } \ ; :`. -/
def isSpecial (c : Char) : Bool :=
  c == '{' || c == '}' || c == '\\' || c == ';' || c == ':'

/-- Python `str.strip()` on a character list: drop leading and trailing
whitespace. -/
def trimChars (l : List Char) : List Char :=
  ((l.dropWhile Char.isWhitespace).reverse.dropWhile Char.isWhitespace).reverse

/-- The scanning loop of `_parse_placeholder` (`lexer.py`): starting from
character position `i`, track brace `depth` (a Python int) and the escape
flag; return `some j` where `j` is the absolute position of the unescaped
`}` that brings the depth to zero, or `none` if the input ends first. -/
def placeholderEnd : List Char → Int → Bool → Nat → Option Nat
  | [], _, _, _ => none
  | c :: rest, depth, escaped, i =>
    if c = ESCAPE_CHAR ∧ ¬ escaped then placeholderEnd rest depth true (i + 1)
    else if escaped then placeholderEnd rest depth false (i + 1)
    else if c = '{' then placeholderEnd rest (depth + 1) false (i + 1)
    else if c = '}' then
      if depth - 1 = 0 then some i else placeholderEnd rest (depth - 1) false (i + 1)
    else placeholderEnd rest depth false (i + 1)

/-- The loop of `_find_separator` (`lexer.py`): find the first occurrence of
`sep` at brace depth 0 outside escape sequences; `some` of its absolute
position, or `none` (Python returns `-1`). -/
def findSepGo : List Char → Char → Int → Bool → Nat → Option Nat
  | [], _, _, _, _ => none
  | c :: rest, sep, depth, escaped, i =>
    if c = ESCAPE_CHAR ∧ ¬ escaped then findSepGo rest sep depth true (i + 1)
    else if escaped then findSepGo rest sep depth false (i + 1)
    else if c = '{' then findSepGo rest sep (depth + 1) false (i + 1)
    else if c = '}' then findSepGo rest sep (depth - 1) false (i + 1)
    else if c = sep ∧ depth = 0 then some i
    else findSepGo rest sep depth false (i + 1)

/-- Function `_find_separator(text, sep)` from `lexer.py`. -/
def findSeparator (text : List Char) (sep : Char) : Option Nat :=
  findSepGo text sep 0 false 0

/-- The loop of `_split_arguments` (`lexer.py`): split on unescaped `;` at
brace depth 0, keeping escape pairs in the buffer, and drop empty segments
(`if buffer:` before every append). -/
def splitArgsGo : List Char → List Char → Int → Bool → List (List Char) → List (List Char)
  | [], buffer, _, _, segments =>
    if buffer = [] then segments else segments ++ [buffer]
  | c :: rest, buffer, depth, escaped, segments =>
    if c = ESCAPE_CHAR ∧ ¬ escaped then
      splitArgsGo rest (buffer ++ [c]) depth true segments
    else if escaped then
      splitArgsGo rest (buffer ++ [c]) depth false segments
    else
      let depth2 := if c = '{' then depth + 1 else if c = '}' then depth - 1 else depth
      if c = ';' ∧ depth2 = 0 then
        splitArgsGo rest [] depth2 false
          (if buffer = [] then segments else segments ++ [buffer])
      else splitArgsGo rest (buffer ++ [c]) depth2 false segments

/-- Function `_split_arguments(args_str)` from `lexer.py`. -/
def splitArguments (argsStr : List Char) : List (List Char) :=
  if argsStr = [] then [] else splitArgsGo argsStr [] 0 false []

/-- Helper measure for the lexer's termination: the largest length of any
segment in a list of segments. -/
def maxLen (segs : List (List Char)) : Nat :=
  segs.foldr (fun s m => max s.length m) 0

theorem maxLen_cons (s : List Char) (rest : List (List Char)) :
    maxLen (s :: rest) = max s.length (maxLen rest) := rfl

theorem length_le_maxLen {s : List Char} {segs : List (List Char)}
    (h : s ∈ segs) : s.length ≤ maxLen segs := by
  induction segs with
  | nil => cases h
  | cons t rest ih =>
    rcases List.mem_cons.mp h with h | h
    · subst h; exact le_max_left _ _
    · exact le_trans (ih h) (le_max_right _ _)

theorem maxLen_le {segs : List (List Char)} {B : Nat}
    (h : ∀ s ∈ segs, s.length ≤ B) : maxLen segs ≤ B := by
  induction segs with
  | nil => exact Nat.zero_le _
  | cons t rest ih =>
    rw [maxLen_cons]
    exact max_le (h t (List.mem_cons_self t rest)) (ih fun s hs => h s (List.mem_cons_of_mem _ hs))

/-- Every segment produced by the splitting loop is either one of the
already-accumulated segments or is built from the buffer plus remaining
input, so its length is bounded by `buffer.length + s.length`. -/
theorem splitArgsGo_length :
    ∀ (s buffer : List Char) (d : Int) (e : Bool) (segs : List (List Char))
      (t : List Char), t ∈ splitArgsGo s buffer d e segs →
      t ∈ segs ∨ t.length ≤ buffer.length + s.length := by
  intro s
  induction s with
  | nil =>
    intro buffer d e segs t ht
    simp only [splitArgsGo] at ht
    by_cases hb : buffer = []
    · simp [hb] at ht; exact Or.inl ht
    · simp [hb] at ht
      rcases ht with ht | ht
      · exact Or.inl ht
      · subst ht; right; simp
  | cons c rest ih =>
    intro buffer d e segs t ht
    simp only [splitArgsGo] at ht
    by_cases h1 : c = ESCAPE_CHAR ∧ ¬ e
    · rw [if_pos h1] at ht
      rcases ih (buffer ++ [c]) d true segs t ht with h | h
      · exact Or.inl h
      · right; simp at h ⊢; omega
    · rw [if_neg h1] at ht
      by_cases h2 : e
      · rw [if_pos h2] at ht
        rcases ih (buffer ++ [c]) d false segs t ht with h | h
        · exact Or.inl h
        · right; simp at h ⊢; omega
      · rw [if_neg h2] at ht
        set d2 := if c = '{' then d + 1 else if c = '}' then d - 1 else d with hd2
        by_cases h3 : c = ';' ∧ d2 = 0
        · rw [if_pos h3] at ht
          rcases ih [] d2 false _ t ht with h | h
          · by_cases hb : buffer = []
            · simp [hb] at h; exact Or.inl h
            · simp [hb] at h
              rcases h with h | h
              · exact Or.inl h
              · subst h; right; simp
          · right; simp at h ⊢; omega
        · rw [if_neg h3] at ht
          rcases ih (buffer ++ [c]) d2 false segs t ht with h | h
          · exact Or.inl h
          · right; simp at h ⊢; omega

/-- Every segment returned by `_split_arguments` is no longer than its
input. -/
theorem splitArguments_length {argsStr t : List Char}
    (h : t ∈ splitArguments argsStr) : t.length ≤ argsStr.length := by
  unfold splitArguments at h
  by_cases ha : argsStr = []
  · simp [ha] at h
  · rw [if_neg ha] at h
    rcases splitArgsGo_length argsStr [] 0 false [] t h with h | h
    · cases h
    · simpa using h

/-- On the empty list the placeholder scan finds no closing brace. -/
theorem placeholderEnd_nil (d : Int) (e : Bool) (i : Nat) :
    placeholderEnd [] d e i = none := rfl

/-- On the empty list the separator scan finds nothing. -/
theorem findSepGo_nil (sep : Char) (d : Int) (e : Bool) (i : Nat) :
    findSepGo [] sep d e i = none := rfl

/-- Buffer flushing in `lex` (`lexer.py`): a non-empty buffer becomes one
`TextNode`, an empty buffer contributes nothing. -/
def flushBuf (buffer : List Char) : List Node :=
  if buffer = [] then [] else [Node.text (String.mk buffer)]

mutual

/-- Function `lex(text)` from `lexer.py`, on a character list: empty input yields
`[]`, otherwise run the scanning loop with an empty buffer. -/
def lexChars (text : List Char) : List Node :=
  if text = [] then [] else lexGo text [] []
termination_by ((text.length : Nat), 4, 0)

/-- The scanning loop of `lex` (`lexer.py`): `text` is the unread input,
`buffer` the pending literal characters, `acc` the emitted nodes.  A
backslash followed by a special character consumes both and buffers only the
escaped character; an unescaped `{` flushes the buffer and hands the rest to
`_parse_placeholder`, continuing after the consumed span (`_parse_placeholder`
always consumes at least one character, so the continuation
`rest.drop (consumed - 1)` equals dropping `consumed` characters from the
full remaining input); any other character is buffered. -/
def lexGo : List Char → List Char → List Node → List Node
  | [], buffer, acc => acc ++ flushBuf buffer
  | c :: next :: rest2, buffer, acc =>
    if c = ESCAPE_CHAR then
      if isSpecial next then lexGo rest2 (buffer ++ [next]) acc
      else lexGo (next :: rest2) (buffer ++ [c]) acc
    else if c = '{' then
      let pr := parsePlaceholder (c :: next :: rest2)
      lexGo ((next :: rest2).drop (pr.2 - 1)) [] (acc ++ flushBuf buffer ++ [pr.1])
    else lexGo (next :: rest2) (buffer ++ [c]) acc
  | [c], buffer, acc =>
    if c = '{' then
      let pr := parsePlaceholder [c]
      lexGo (([] : List Char).drop (pr.2 - 1)) [] (acc ++ flushBuf buffer ++ [pr.1])
    else lexGo [] (buffer ++ [c]) acc
termination_by text _ _ => ((text.length : Nat), 3, 0)

/-- Function `_parse_placeholder(text)` from `lexer.py`: scan for the matching
closing brace; if none, the whole text becomes a literal `TextNode`
(unclosed-placeholder rule); if the inner content is empty or
whitespace-only, the raw span becomes a literal `TextNode`
(empty-placeholder rule); otherwise parse name and arguments.  Returns the
node and the number of characters consumed. -/
def parsePlaceholder (text : List Char) : Node × Nat :=
  match h : placeholderEnd text 0 false 0 with
  | none => (Node.text (String.mk text), text.length)
  | some i =>
    let raw := text.take (i + 1)
    let inner := (raw.drop 1).dropLast
    if trimChars inner = [] then (Node.text (String.mk raw), i + 1)
    else
      let na := parseArguments inner
      (Node.placeholder (String.mk raw) na.1 na.2, i + 1)
termination_by ((text.length : Nat), 2, 0)
decreasing_by
  simp_wf
  apply Prod.Lex.left
  cases text with
  | nil => simp [placeholderEnd] at h
  | cons a l =>
    have hm := Nat.min_le_right (i + 1) (a :: l).length
    simp only [List.length_cons] at hm ⊢
    omega

/-- Function `_parse_arguments(inner)` from `lexer.py`: split name from arguments at
the first unescaped depth-0 colon; without a colon the whole trimmed inner
text is the name and there are no arguments; otherwise split the argument
portion on depth-0 semicolons and lex each argument string into its own
node group. -/
def parseArguments (inner : List Char) : String × List (List Node) :=
  match h : findSeparator inner ':' with
  | none => (String.mk (trimChars inner), [])
  | some colonPos =>
    (String.mk (trimChars (inner.take colonPos)),
     lexSegs (splitArguments (inner.drop (colonPos + 1))))
termination_by ((inner.length : Nat), 1, 0)
decreasing_by
  have hne : inner ≠ [] := by
    intro hn; rw [hn] at h; simp [findSeparator, findSepGo] at h
  have hm : maxLen (splitArguments (List.drop (colonPos + 1) inner)) ≤ inner.length - (colonPos + 1) := by
    apply maxLen_le
    intro t ht
    have := splitArguments_length ht
    simpa using this
  have hlen : 1 ≤ inner.length := by
    cases inner with
    | nil => exact absurd rfl hne
    | cons a l => simp
  rcases Nat.lt_or_ge (maxLen (splitArguments (List.drop (colonPos + 1) inner)) + 1) inner.length with hlt | hge
  · exact Prod.Lex.left _ _ hlt
  · have heq : maxLen (splitArguments (List.drop (colonPos + 1) inner)) + 1 = inner.length := by omega
    rw [heq]
    exact Prod.Lex.right _ (Prod.Lex.left _ _ (by omega))

/-- The argument loop of `_parse_arguments`: lex each argument string into
its node group, in order. -/
def lexSegs : List (List Char) → List (List Node)
  | [] => []
  | seg :: rest => lexChars seg :: lexSegs rest
termination_by segs => (maxLen segs + 1, 0, segs.length)
decreasing_by
  · simp_wf
    apply Prod.Lex.left
    have h1 : seg.length ≤ maxLen (seg :: rest) := by
      rw [maxLen_cons]; exact le_max_left _ _
    omega
  · simp_wf
    have h2 : maxLen rest ≤ maxLen (seg :: rest) := by
      rw [maxLen_cons]; exact le_max_right _ _
    rcases lt_or_eq_of_le h2 with hlt | heq
    · exact Prod.Lex.left _ _ (by omega)
    · rw [heq]
      apply Prod.Lex.right
      apply Prod.Lex.right
      simp

end

/-- Constant `MAX_NESTING` from `interpreter.py`: maximum nesting depth. -/
def MAX_NESTING : Nat := 15

/-- Structure `RenderResult` (`render_result.py`): rendered content plus collected
embeds and emojis (their element type is irrelevant to the claims and is
modelled as `String`). -/
structure RenderResult where
  content : String
  embeds : List String
  emojis : List String
deriving DecidableEq

/-- The fresh result both the interpreter constructor and the engine use:
`RenderResult(content="", embeds=[], emojis=[])`. -/
def emptyResult : RenderResult := { content := "", embeds := [], emojis := [] }

/-- The two handler namespaces held by an `Interpreter` (`interpreter.py`):
`variables` maps a name to a variable handler (called with the context),
`functions` maps a name to a function handler (called with the context, the
in-progress `RenderResult`, and the evaluated argument strings).  A handler
returns `Except.error ()` when it raises, `Except.ok none` for `None`, and
`Except.ok (some s)` for a value stringifying to `s`. -/
structure Registry (Ctx : Type) where
  vars : String → Option (Ctx → Except Unit (Option String))
  funcs : String → Option (Ctx → RenderResult → List String → Except Unit (Option String))

/-- The stringification the interpreter applies to a handler's returned
value: `str(result) if result is not None else ""`. -/
def pyStr : Option String → String
  | some s => s
  | none => ""

mutual

/-- Function `Interpreter._eval` combined with `Interpreter._eval_placeholder`
(`interpreter.py`).  Depth guard first: `depth > MAX_NESTING` returns
`node.raw`.  A text node returns its value.  A placeholder with no
arguments whose name is a registered variable invokes that variable
handler, substituting `""` for a raised exception; otherwise, if the name
is a registered function, every argument group is evaluated at `depth + 1`
into one string per group and the function handler is invoked on them,
substituting `""` for a raised exception; otherwise the placeholder is
unknown and its raw text is returned.  `_eval` is total, so the
`try/except` around each top-level node in `Interpreter.render` never
fires; its fallback branch is consequently absent from `renderGo`. -/
def evalNode {Ctx : Type} (reg : Registry Ctx) (ctx : Ctx) (res : RenderResult)
    (node : Node) (depth : Nat) : String :=
  if MAX_NESTING < depth then node.raw
  else
    match node with
    | .text v => v
    | .placeholder raw name args =>
      match args, reg.vars name with
      | [], some v =>
        match v ctx with
        | .ok r => pyStr r
        | .error _ => ""
      | [], none => evalFnBranch reg ctx res raw name [] depth
      | g :: gs, _ => evalFnBranch reg ctx res raw name (g :: gs) depth
termination_by (sizeOf node, 0)

/-- The second half of `_eval_placeholder` (`interpreter.py`), reached when
the variable branch does not apply: look the name up in the function
namespace, evaluate the argument groups at `depth + 1`, invoke the handler
(substituting `""` for a raised exception), and fall back to the raw text
when the name is unknown. -/
def evalFnBranch {Ctx : Type} (reg : Registry Ctx) (ctx : Ctx) (res : RenderResult)
    (raw name : String) (args : List (List Node)) (depth : Nat) : String :=
  match reg.funcs name with
  | some f =>
    match f ctx res (evalGroups reg ctx res args (depth + 1)) with
    | .ok r => pyStr r
    | .error _ => ""
  | none => raw
termination_by (sizeOf args, 1)

/-- The argument-group loop of `_eval_placeholder`: one evaluated string
per argument group, in group order. -/
def evalGroups {Ctx : Type} (reg : Registry Ctx) (ctx : Ctx) (res : RenderResult) :
    List (List Node) → Nat → List String
  | [], _ => []
  | g :: gs, depth => evalGroup reg ctx res g depth :: evalGroups reg ctx res gs depth
termination_by gs _ => (sizeOf gs, 0)

/-- The inner loop of `_eval_placeholder` for one argument group:
concatenate the evaluation of every node in the group. -/
def evalGroup {Ctx : Type} (reg : Registry Ctx) (ctx : Ctx) (res : RenderResult) :
    List Node → Nat → String
  | [], _ => ""
  | n :: ns, depth => evalNode reg ctx res n depth ++ evalGroup reg ctx res ns depth
termination_by ns _ => (sizeOf ns, 0)

end

/-- The loop of `Interpreter.render` (`interpreter.py`): evaluate each
top-level node at depth 0 and append its output to the accumulated
content.  The current result is passed to `evalNode` so function handlers
see the in-progress `RenderResult`, as in the source. -/
def renderGo {Ctx : Type} (reg : Registry Ctx) (ctx : Ctx) :
    List Node → RenderResult → RenderResult
  | [], res => res
  | n :: rest, res =>
    renderGo reg ctx rest { res with content := res.content ++ evalNode reg ctx res n 0 }

/-- Function `Interpreter.render(nodes, ctx)` (`interpreter.py`): start from the
fresh result built in `Interpreter.__init__`. -/
def interpRender {Ctx : Type} (reg : Registry Ctx) (nodes : List Node) (ctx : Ctx) :
    RenderResult :=
  renderGo reg ctx nodes emptyResult

/-- Function `InterpolationEngine.render(text, ctx)` (`interpolator.py`): empty text
short-circuits to an empty result; otherwise lex the template and hand the
nodes to the interpreter. -/
def engineRender {Ctx : Type} (reg : Registry Ctx) (text : String) (ctx : Ctx) :
    RenderResult :=
  if text.data = [] then emptyResult else interpRender reg (lexChars text.data) ctx

/-- Decimal digit value of a character (0 for non-digits), used by the
example `sum` handler. -/
def digitVal (c : Char) : Nat :=
  if c = '1' then 1 else if c = '2' then 2 else if c = '3' then 3 else
  if c = '4' then 4 else if c = '5' then 5 else if c = '6' then 6 else
  if c = '7' then 7 else if c = '8' then 8 else if c = '9' then 9 else 0

/-- Decimal reading of a string, used by the example `sum` handler. -/
def strToNat (s : String) : Nat :=
  s.data.foldl (fun acc c => acc * 10 + digitVal c) 0

/-- Join strings with a separator, used by example handlers to expose the
argument boundaries they received. -/
def joinWith (sep : String) : List String → String
  | [] => ""
  | [a] => a
  | a :: rest => a ++ sep ++ joinWith sep rest

/-- A registry with no registered handlers at all. -/
def emptyReg : Registry Unit where
  vars := fun _ => none
  funcs := fun _ => none

/-- A registry where `greet` is registered both as a Variable (returning
`"V"`) and as a Function (returning `"F:"` followed by its arguments). -/
def greetReg : Registry Unit where
  vars := fun n => if n = "greet" then some (fun _ => .ok (some "V")) else none
  funcs := fun n =>
    if n = "greet" then some (fun _ _ args => .ok (some ("F:" ++ joinWith "," args)))
    else none

/-- A registry with Function handlers `sum` (sum of integer arguments) and
`concat` (arguments joined with `"|"`). -/
def mathReg : Registry Unit where
  vars := fun _ => none
  funcs := fun n =>
    if n = "sum" then
      some (fun _ _ args => .ok (some (Nat.repr (args.foldl (fun acc s => acc + strToNat s) 0))))
    else if n = "concat" then
      some (fun _ _ args => .ok (some (joinWith "|" args)))
    else none

/-- A registry with a Function `f` reporting how many arguments it received
followed by the arguments themselves. -/
def countReg : Registry Unit where
  vars := fun _ => none
  funcs := fun n =>
    if n = "f" then
      some (fun _ _ args => .ok (some (Nat.repr args.length ++ ":" ++ joinWith "," args)))
    else none

/-- A registry where Variable `a` returns the placeholder-shaped string
`"{b}"`, Variable `b` returns `"X"`, and Function `f` echoes its arguments:
used to show a handler's output is never re-evaluated. -/
def inertReg : Registry Unit where
  vars := fun n =>
    if n = "a" then some (fun _ => .ok (some "{b}"))
    else if n = "b" then some (fun _ => .ok (some "X"))
    else none
  funcs := fun n =>
    if n = "f" then some (fun _ _ args => .ok (some (joinWith "," args)))
    else none

/-- A registry whose Variable `boom` and Function `bang` raise, and whose
Variable `v` returns `"V"`: used to exercise handler-exception recovery. -/
def boomReg : Registry Unit where
  vars := fun n =>
    if n = "boom" then some (fun _ => .error ())
    else if n = "v" then some (fun _ => .ok (some "V"))
    else none
  funcs := fun n => if n = "bang" then some (fun _ _ _ => .error ()) else none

/-- Concrete lexer run on the template `a{b`. -/
theorem lex_ab : lexChars ("a\x7bb").data =
    [Node.text "a", Node.text "\x7bb"] := by
  show lexChars ['a','{','b'] = _
  simp [lexChars, lexGo, parsePlaceholder, parseArguments, lexSegs, placeholderEnd,
    findSeparator, findSepGo, splitArguments, splitArgsGo, trimChars, flushBuf,
    isSpecial, ESCAPE_CHAR]

/-- Concrete lexer run on the template `x{}y`. -/
theorem lex_xbracesy : lexChars ("x{}y").data =
    [Node.text "x", Node.text "{}", Node.text "y"] := by
  show lexChars ['x','{','}','y'] = _
  simp [lexChars, lexGo, parsePlaceholder, parseArguments, lexSegs, placeholderEnd,
    findSeparator, findSepGo, splitArguments, splitArgsGo, trimChars, flushBuf,
    isSpecial, ESCAPE_CHAR]

/-- Concrete lexer run on the template `{not.a.thing}`. -/
theorem lex_notathing : lexChars ("{not.a.thing}").data =
    [Node.placeholder "{not.a.thing}" "not.a.thing" []] := by
  show lexChars ['{','n','o','t','.','a','.','t','h','i','n','g','}'] = _
  simp [lexChars, lexGo, parsePlaceholder, parseArguments, lexSegs, placeholderEnd,
    findSeparator, findSepGo, splitArguments, splitArgsGo, trimChars, flushBuf,
    isSpecial, ESCAPE_CHAR]

/-- Concrete lexer run on the template `{greet}`. -/
theorem lex_greet : lexChars ("{greet}").data =
    [Node.placeholder "{greet}" "greet" []] := by
  show lexChars ['{','g','r','e','e','t','}'] = _
  simp [lexChars, lexGo, parsePlaceholder, parseArguments, lexSegs, placeholderEnd,
    findSeparator, findSepGo, splitArguments, splitArgsGo, trimChars, flushBuf,
    isSpecial, ESCAPE_CHAR]

/-- Concrete lexer run on the template `{greet:x}`. -/
theorem lex_greet_x : lexChars ("{greet:x}").data =
    [Node.placeholder "{greet:x}" "greet" [[Node.text "x"]]] := by
  show lexChars ['{','g','r','e','e','t',':','x','}'] = _
  simp [lexChars, lexGo, parsePlaceholder, parseArguments, lexSegs, placeholderEnd,
    findSeparator, findSepGo, splitArguments, splitArgsGo, trimChars, flushBuf,
    isSpecial, ESCAPE_CHAR]

/-- Concrete lexer run on the template `backslash {literalbackslash }`. -/
theorem lex_escaped_literal : lexChars ("\\\x7bliteral\\\x7d").data =
    [Node.text "{literal}"] := by
  show lexChars ['\\','{','l','i','t','e','r','a','l','\\','}'] = _
  simp [lexChars, lexGo, parsePlaceholder, parseArguments, lexSegs, placeholderEnd,
    findSeparator, findSepGo, splitArguments, splitArgsGo, trimChars, flushBuf,
    isSpecial, ESCAPE_CHAR]

/-- Concrete lexer run on the template `{concat:{sum:1;2};x}`. -/
theorem lex_concat_nested : lexChars ("{concat:{sum:1;2};x}").data =
    [Node.placeholder "{concat:{sum:1;2};x}" "concat"
      [[Node.placeholder "{sum:1;2}" "sum" [[Node.text "1"], [Node.text "2"]]],
       [Node.text "x"]]] := by
  show lexChars ['{','c','o','n','c','a','t',':','{','s','u','m',':','1',';','2','}',';','x','}'] = _
  simp [lexChars, lexGo, parsePlaceholder, parseArguments, lexSegs, placeholderEnd,
    findSeparator, findSepGo, splitArguments, splitArgsGo, trimChars, flushBuf,
    isSpecial, ESCAPE_CHAR]

/-- Concrete lexer run on the template `{f:;a}`. -/
theorem lex_semi_a : lexChars ("{f:;a}").data =
    [Node.placeholder "{f:;a}" "f" [[Node.text "a"]]] := by
  show lexChars ['{','f',':',';','a','}'] = _
  simp [lexChars, lexGo, parsePlaceholder, parseArguments, lexSegs, placeholderEnd,
    findSeparator, findSepGo, splitArguments, splitArgsGo, trimChars, flushBuf,
    isSpecial, ESCAPE_CHAR]

/-- Concrete lexer run on the template `{f:a;}`. -/
theorem lex_a_semi : lexChars ("{f:a;}").data =
    [Node.placeholder "{f:a;}" "f" [[Node.text "a"]]] := by
  show lexChars ['{','f',':','a',';','}'] = _
  simp [lexChars, lexGo, parsePlaceholder, parseArguments, lexSegs, placeholderEnd,
    findSeparator, findSepGo, splitArguments, splitArgsGo, trimChars, flushBuf,
    isSpecial, ESCAPE_CHAR]

/-- Concrete lexer run on the template `{a}`. -/
theorem lex_var_a : lexChars ("{a}").data =
    [Node.placeholder "{a}" "a" []] := by
  show lexChars ['{','a','}'] = _
  simp [lexChars, lexGo, parsePlaceholder, parseArguments, lexSegs, placeholderEnd,
    findSeparator, findSepGo, splitArguments, splitArgsGo, trimChars, flushBuf,
    isSpecial, ESCAPE_CHAR]

/-- Concrete lexer run on the template `{f:{a}}`. -/
theorem lex_f_nested_a : lexChars ("{f:{a}}").data =
    [Node.placeholder "{f:{a}}" "f" [[Node.placeholder "{a}" "a" []]]] := by
  show lexChars ['{','f',':','{','a','}','}'] = _
  simp [lexChars, lexGo, parsePlaceholder, parseArguments, lexSegs, placeholderEnd,
    findSeparator, findSepGo, splitArguments, splitArgsGo, trimChars, flushBuf,
    isSpecial, ESCAPE_CHAR]

/-- Concrete lexer run on the template `backslash {`. -/
theorem lex_backslash_brace : lexChars ("\\\x7b").data =
    [Node.text "\x7b"] := by
  show lexChars ['\\','{'] = _
  simp [lexChars, lexGo, parsePlaceholder, parseArguments, lexSegs, placeholderEnd,
    findSeparator, findSepGo, splitArguments, splitArgsGo, trimChars, flushBuf,
    isSpecial, ESCAPE_CHAR]

/-- Concrete lexer run on the template `a{boom}b{bang:x}c`. -/
theorem lex_boom_bang : lexChars ("a{boom}b{bang:x}c").data =
    [Node.text "a", Node.placeholder "{boom}" "boom" [], Node.text "b",
     Node.placeholder "{bang:x}" "bang" [[Node.text "x"]], Node.text "c"] := by
  show lexChars ['a','{','b','o','o','m','}','b','{','b','a','n','g',':','x','}','c'] = _
  simp [lexChars, lexGo, parsePlaceholder, parseArguments, lexSegs, placeholderEnd,
    findSeparator, findSepGo, splitArguments, splitArgsGo, trimChars, flushBuf,
    isSpecial, ESCAPE_CHAR]

theorem evalNode_guard {Ctx : Type} (reg : Registry Ctx) (ctx : Ctx) (res : RenderResult)
    (node : Node) (depth : Nat) (hd : MAX_NESTING < depth) :
    evalNode reg ctx res node depth = node.raw := by
  rw [evalNode.eq_def, if_pos hd]

theorem evalNode_text {Ctx : Type} (reg : Registry Ctx) (ctx : Ctx) (res : RenderResult)
    (val : String) (depth : Nat) :
    evalNode reg ctx res (Node.text val) depth = val := by
  by_cases hd : MAX_NESTING < depth
  · rw [evalNode.eq_def, if_pos hd]; rfl
  · rw [evalNode.eq_def, if_neg hd]

theorem evalNode_var {Ctx : Type} (reg : Registry Ctx) (ctx : Ctx) (res : RenderResult)
    (raw name : String) (depth : Nat) (v : Ctx → Except Unit (Option String))
    (hd : ¬ MAX_NESTING < depth) (hv : reg.vars name = some v) :
    evalNode reg ctx res (Node.placeholder raw name []) depth =
      (match v ctx with | .ok r => pyStr r | .error _ => "") := by
  simp only [evalNode.eq_def, hd, if_false, hv]

theorem evalNode_fnBranch {Ctx : Type} (reg : Registry Ctx) (ctx : Ctx) (res : RenderResult)
    (raw name : String) (args : List (List Node)) (depth : Nat)
    (hd : ¬ MAX_NESTING < depth) (hv : args = [] → reg.vars name = none) :
    evalNode reg ctx res (Node.placeholder raw name args) depth =
      evalFnBranch reg ctx res raw name args depth := by
  cases args with
  | nil => simp only [evalNode.eq_def, hd, if_false, hv rfl]
  | cons g gs => simp only [evalNode.eq_def, hd, if_false]

theorem evalNode_fn {Ctx : Type} (reg : Registry Ctx) (ctx : Ctx) (res : RenderResult)
    (raw name : String) (args : List (List Node)) (depth : Nat)
    (f : Ctx → RenderResult → List String → Except Unit (Option String))
    (hd : ¬ MAX_NESTING < depth) (hv : args = [] → reg.vars name = none)
    (hf : reg.funcs name = some f) :
    evalNode reg ctx res (Node.placeholder raw name args) depth =
      (match f ctx res (evalGroups reg ctx res args (depth + 1)) with
        | .ok r => pyStr r | .error _ => "") := by
  rw [evalNode_fnBranch reg ctx res raw name args depth hd hv, evalFnBranch, hf]

theorem evalNode_unknown {Ctx : Type} (reg : Registry Ctx) (ctx : Ctx) (res : RenderResult)
    (raw name : String) (args : List (List Node)) (depth : Nat)
    (hv : reg.vars name = none ∨ args ≠ []) (hf : reg.funcs name = none) :
    evalNode reg ctx res (Node.placeholder raw name args) depth = raw := by
  by_cases hd : MAX_NESTING < depth
  · rw [evalNode.eq_def, if_pos hd]; rfl
  · have hv2 : args = [] → reg.vars name = none := by
      intro ha
      rcases hv with hv | hv
      · exact hv
      · exact absurd ha hv
    rw [evalNode_fnBranch reg ctx res raw name args depth hd hv2, evalFnBranch, hf]

/-- Unfolding of one step of the top-level render loop: the head node's
evaluation is appended to the content and rendering continues with the
remaining nodes. -/
theorem renderGo_cons {Ctx : Type} (reg : Registry Ctx) (ctx : Ctx) (res : RenderResult)
    (n : Node) (rest : List Node) :
    renderGo reg ctx (n :: rest) res =
      renderGo reg ctx rest { res with content := res.content ++ evalNode reg ctx res n 0 } :=
  rfl

/-- The evaluated argument strings are exactly one string per argument
group, produced in group order. -/
theorem evalGroups_eq_map {Ctx : Type} (reg : Registry Ctx) (ctx : Ctx) (res : RenderResult)
    (args : List (List Node)) (depth : Nat) :
    evalGroups reg ctx res args depth = args.map (fun g => evalGroup reg ctx res g depth) := by
  induction args with
  | nil => simp [evalGroups]
  | cons g gs ih => rw [evalGroups, ih, List.map_cons]

/-- C1: `render` never raises to its caller: the interpreter's render loop
is a total function in which every top-level node contributes its
(always-defined) evaluation and processing always continues with the
sibling nodes; an exception raised inside a Variable handler or a Function
handler is caught locally and that single placeholder contributes the
empty string.  `_eval` is total — every handler exception is caught inside
`_eval_placeholder` — so the outer per-node `try/except` (which would
substitute the node's raw text) is unreachable, and the loop equation in
the first conjunct is unconditional.  The last conjunct shows a render in
which both a Variable and a Function handler raise: both placeholders
degrade to the empty string and the sibling text nodes still render. -/
theorem c1_render_never_raises {Ctx : Type} (reg : Registry Ctx) (ctx : Ctx)
    (res : RenderResult) (nodes : List Node) (node : Node) :
    (renderGo reg ctx (node :: nodes) res =
       renderGo reg ctx nodes { res with content := res.content ++ evalNode reg ctx res node 0 })
    ∧ (∀ raw name v, reg.vars name = some v → v ctx = Except.error () →
         evalNode reg ctx res (Node.placeholder raw name []) 0 = "")
    ∧ (∀ raw name args f, (args = [] → reg.vars name = none) →
         reg.funcs name = some f →
         f ctx res (evalGroups reg ctx res args 1) = Except.error () →
         evalNode reg ctx res (Node.placeholder raw name args) 0 = "")
    ∧ (engineRender boomReg "a{boom}b{bang:x}c" ()).content = "abc" := by
  refine ⟨renderGo_cons reg ctx res node nodes, ?_, ?_, ?_⟩
  · intro raw name v hv herr
    rw [evalNode_var reg ctx res raw name 0 v (by decide) hv, herr]
  · intro raw name args f hv hf herr
    rw [evalNode_fn reg ctx res raw name args 0 f (by decide) hv hf]
    simp only [Nat.zero_add] at herr ⊢
    rw [herr]
  · simp only [engineRender]
    rw [if_neg (by decide), lex_boom_bang]
    simp [interpRender, renderGo, evalNode, evalFnBranch, evalGroups, evalGroup, pyStr,
      emptyResult, boomReg, MAX_NESTING]

theorem c1_render_never_raises_witness :
    evalNode boomReg () emptyResult (Node.placeholder "{boom}" "boom" []) 0 = ""
    ∧ evalNode boomReg () emptyResult (Node.placeholder "{bang:x}" "bang" [[Node.text "x"]]) 0 = "" := by
  constructor
  · exact (c1_render_never_raises boomReg () emptyResult [] (Node.text "")).2.1
      "{boom}" "boom" (fun _ => Except.error ()) (by simp [boomReg]) rfl
  · exact (c1_render_never_raises boomReg () emptyResult [] (Node.text "")).2.2.1
      "{bang:x}" "bang" [[Node.text "x"]] (fun _ _ _ => Except.error ())
      (by simp) (by simp [boomReg]) rfl

/-- C2: recursive evaluation is depth-guarded at the fixed bound 15
(`MAX_NESTING`): whenever `_eval` is invoked with a depth exceeding 15 it
returns `node.raw` immediately, for every registry whatsoever — so no
handler can be invoked and no descent happens; in the function branch the
argument groups are evaluated at `depth + 1`.  Termination of every render
call is witnessed by `evalNode`, `renderGo` and `engineRender` being total
functions of this development. -/
theorem c2_depth_guard {Ctx : Type} (reg : Registry Ctx) (ctx : Ctx) (res : RenderResult)
    (node : Node) (depth : Nat) (raw name : String) (args : List (List Node))
    (f : Ctx → RenderResult → List String → Except Unit (Option String)) :
    (MAX_NESTING < depth → evalNode reg ctx res node depth = node.raw)
    ∧ MAX_NESTING = 15
    ∧ (¬ MAX_NESTING < depth → (args = [] → reg.vars name = none) →
        reg.funcs name = some f →
        evalNode reg ctx res (Node.placeholder raw name args) depth =
          (match f ctx res (evalGroups reg ctx res args (depth + 1)) with
            | .ok r => pyStr r | .error _ => "")) := by
  refine ⟨?_, rfl, ?_⟩
  · intro hd
    exact evalNode_guard reg ctx res node depth hd
  · intro hd hv hf
    exact evalNode_fn reg ctx res raw name args depth f hd hv hf

theorem c2_depth_guard_witness :
    evalNode emptyReg () emptyResult (Node.placeholder "{v}" "v" []) 16 = "{v}"
    ∧ evalNode countReg () emptyResult (Node.placeholder "{f:a}" "f" [[Node.text "a"]]) 0 = "1:a" := by
  constructor
  · exact (c2_depth_guard emptyReg () emptyResult (Node.placeholder "{v}" "v" []) 16
      "" "" [] (fun _ _ _ => Except.error ())).1 (by decide)
  · have h3 := (c2_depth_guard countReg () emptyResult (Node.text "") 0 "{f:a}" "f"
      [[Node.text "a"]]
      (fun _ _ args => .ok (some (Nat.repr args.length ++ ":" ++ joinWith "," args)))).2.2
      (by decide) (by simp) (by simp [countReg])
    rw [h3]
    simp [evalGroups, evalGroup, evalNode_text, pyStr, joinWith]
    decide

/-- C4: a placeholder whose name is registered in neither namespace
evaluates to its `raw` field verbatim — not to an error and not to the
empty string — and rendering `{not.a.thing}` against any registry with no
handler of that name yields exactly `"{not.a.thing}"`. -/
theorem c4_unknown_passthrough {Ctx : Type} (reg : Registry Ctx) (ctx : Ctx)
    (res : RenderResult) (raw name : String) (args : List (List Node)) (depth : Nat)
    (hv : reg.vars name = none) (hf : reg.funcs name = none)
    (hv2 : reg.vars "not.a.thing" = none) (hf2 : reg.funcs "not.a.thing" = none) :
    evalNode reg ctx res (Node.placeholder raw name args) depth = raw
    ∧ (engineRender reg "{not.a.thing}" ctx).content = "{not.a.thing}" := by
  constructor
  · exact evalNode_unknown reg ctx res raw name args depth (Or.inl hv) hf
  · have he := evalNode_unknown reg ctx emptyResult "{not.a.thing}" "not.a.thing" [] 0
      (Or.inl hv2) hf2
    simp only [emptyResult] at he
    simp only [engineRender]
    rw [if_neg (by decide), lex_notathing]
    simp [interpRender, renderGo, he, emptyResult]

theorem c4_unknown_passthrough_witness :
    evalNode emptyReg () emptyResult (Node.placeholder "{not.a.thing}" "not.a.thing" []) 0
      = "{not.a.thing}"
    ∧ (engineRender emptyReg "{not.a.thing}" ()).content = "{not.a.thing}" :=
  c4_unknown_passthrough emptyReg () emptyResult "{not.a.thing}" "not.a.thing" [] 0
    rfl rfl rfl rfl

/-- C5: name-resolution precedence.  A zero-argument placeholder checks the
Variable namespace first and invokes the Variable handler on a match; only
when no Variable matches is the Function namespace consulted, and a
zero-argument name registered only as a Function is invoked as a Function
with no argument strings.  A placeholder with one or more arguments is
resolved only against the Function namespace: with no matching Function it
falls through to raw-text passthrough even if a same-named Variable exists.
With `greet` registered as both, `{greet}` invokes the Variable and
`{greet:x}` invokes the Function. -/
theorem c5_resolution_precedence {Ctx : Type} (reg : Registry Ctx) (ctx : Ctx)
    (res : RenderResult) (depth : Nat) (raw name : String) (args : List (List Node))
    (hd : ¬ MAX_NESTING < depth) :
    (∀ v, reg.vars name = some v →
       evalNode reg ctx res (Node.placeholder raw name []) depth =
         (match v ctx with | .ok r => pyStr r | .error _ => ""))
    ∧ (∀ f, reg.vars name = none → reg.funcs name = some f →
       evalNode reg ctx res (Node.placeholder raw name []) depth =
         (match f ctx res [] with | .ok r => pyStr r | .error _ => ""))
    ∧ (args ≠ [] → reg.funcs name = none →
       evalNode reg ctx res (Node.placeholder raw name args) depth = raw)
    ∧ (engineRender greetReg "{greet}" ()).content = "V"
    ∧ (engineRender greetReg "{greet:x}" ()).content = "F:x" := by
  refine ⟨?_, ?_, ?_, ?_, ?_⟩
  · intro v hv
    exact evalNode_var reg ctx res raw name depth v hd hv
  · intro f hv hf
    rw [evalNode_fn reg ctx res raw name [] depth f hd (fun _ => hv) hf]
    rw [evalGroups]
  · intro ha hf
    exact evalNode_unknown reg ctx res raw name args depth (Or.inr ha) hf
  · simp only [engineRender]
    rw [if_neg (by decide), lex_greet]
    simp [interpRender, renderGo, evalNode, evalFnBranch, evalGroups, evalGroup, pyStr,
      emptyResult, greetReg, MAX_NESTING]
  · simp only [engineRender]
    rw [if_neg (by decide), lex_greet_x]
    simp [interpRender, renderGo, evalNode, evalFnBranch, evalGroups, evalGroup, pyStr,
      emptyResult, greetReg, MAX_NESTING, joinWith]

theorem c5_resolution_precedence_witness :
    evalNode greetReg () emptyResult (Node.placeholder "{greet}" "greet" []) 0 = "V"
    ∧ evalNode emptyReg () emptyResult
        (Node.placeholder "{greet:x}" "greet" [[Node.text "x"]]) 0 = "{greet:x}" := by
  constructor
  · have h := (c5_resolution_precedence greetReg () emptyResult 0 "{greet}" "greet" []
      (by decide)).1 (fun _ => .ok (some "V")) (by simp [greetReg])
    rw [h]
    rfl
  · exact (c5_resolution_precedence emptyReg () emptyResult 0 "{greet:x}" "greet"
      [[Node.text "x"]] (by decide)).2.2.1 (by simp) rfl

/-- C10: a handler's return value is inert text.  The interpreter splices
the stringified handler result verbatim into the output (or into the
enclosing evaluated argument string) without re-lexing or re-evaluating
it.  With Variable `a` returning the string `"{b}"` and Variable `b`
registered (returning `"X"`), both `{a}` and `{f:{a}}` render to content
`"{b}"`: the placeholder-shaped handler output never triggers further
evaluation. -/
theorem c10_handler_output_inert {Ctx : Type} (reg : Registry Ctx) (ctx : Ctx)
    (res : RenderResult) (raw name : String) (args : List (List Node)) (depth : Nat)
    (s : String) (hd : ¬ MAX_NESTING < depth) :
    (∀ v, reg.vars name = some v → v ctx = .ok (some s) →
       evalNode reg ctx res (Node.placeholder raw name []) depth = s)
    ∧ (∀ f, (args = [] → reg.vars name = none) → reg.funcs name = some f →
       f ctx res (evalGroups reg ctx res args (depth + 1)) = .ok (some s) →
       evalNode reg ctx res (Node.placeholder raw name args) depth = s)
    ∧ (engineRender inertReg "{a}" ()).content = "{b}"
    ∧ (engineRender inertReg "{f:{a}}" ()).content = "{b}" := by
  refine ⟨?_, ?_, ?_, ?_⟩
  · intro v hv hok
    rw [evalNode_var reg ctx res raw name depth v hd hv, hok]
    rfl
  · intro f hv hf hok
    rw [evalNode_fn reg ctx res raw name args depth f hd hv hf, hok]
    rfl
  · simp only [engineRender]
    rw [if_neg (by decide), lex_var_a]
    simp [interpRender, renderGo, evalNode, evalFnBranch, evalGroups, evalGroup, pyStr,
      emptyResult, inertReg, MAX_NESTING]
  · simp only [engineRender]
    rw [if_neg (by decide), lex_f_nested_a]
    simp [interpRender, renderGo, evalNode, evalFnBranch, evalGroups, evalGroup, pyStr,
      emptyResult, inertReg, MAX_NESTING, joinWith]

theorem c10_handler_output_inert_witness :
    evalNode inertReg () emptyResult (Node.placeholder "{a}" "a" []) 0 = "{b}" := by
  have h := (c10_handler_output_inert inertReg () emptyResult "{a}" "a" [] 0 "{b}"
    (by decide)).1 (fun _ => .ok (some "{b}")) (by simp [inertReg]) rfl
  exact h

theorem splitArgsGo_ne_nil :
    ∀ (s buffer : List Char) (d : Int) (e : Bool) (segs : List (List Char))
      (t : List Char), t ∈ splitArgsGo s buffer d e segs →
      t ∈ segs ∨ t ≠ [] := by
  intro s
  induction s with
  | nil =>
    intro buffer d e segs t ht
    simp only [splitArgsGo] at ht
    by_cases hb : buffer = []
    · simp [hb] at ht; exact Or.inl ht
    · simp [hb] at ht
      rcases ht with ht | ht
      · exact Or.inl ht
      · subst ht; exact Or.inr hb
  | cons c rest ih =>
    intro buffer d e segs t ht
    simp only [splitArgsGo] at ht
    by_cases h1 : c = ESCAPE_CHAR ∧ ¬ e
    · rw [if_pos h1] at ht
      exact ih (buffer ++ [c]) d true segs t ht
    · rw [if_neg h1] at ht
      by_cases h2 : e
      · rw [if_pos h2] at ht
        exact ih (buffer ++ [c]) d false segs t ht
      · rw [if_neg h2] at ht
        set d2 := if c = '{' then d + 1 else if c = '}' then d - 1 else d with hd2
        by_cases h3 : c = ';' ∧ d2 = 0
        · rw [if_pos h3] at ht
          rcases ih [] d2 false _ t ht with h | h
          · by_cases hb : buffer = []
            · simp [hb] at h; exact Or.inl h
            · simp [hb] at h
              rcases h with h | h
              · exact Or.inl h
              · subst h; exact Or.inr hb
          · exact Or.inr h
        · rw [if_neg h3] at ht
          exact ih (buffer ++ [c]) d2 false segs t ht

theorem splitArguments_ne_nil {argsStr t : List Char}
    (h : t ∈ splitArguments argsStr) : t ≠ [] := by
  unfold splitArguments at h
  by_cases ha : argsStr = []
  · simp [ha] at h
  · rw [if_neg ha] at h
    rcases splitArgsGo_ne_nil argsStr [] 0 false [] t h with h | h
    · cases h
    · exact h


/-- C3: a brace span that is not a well-formed placeholder becomes a
literal `TextNode` of the exact source span.  If the brace depth never
returns to zero before the input ends, `_parse_placeholder` turns the
whole remaining text into one `TextNode` (so `render("a{b")` has content
`"a{b"`); if the braces close on empty or whitespace-only inner content, a
`TextNode` of the raw span is produced instead of a `PlaceholderNode` (so
`render("x{}y")` has content `"x{}y"`) — for every registry and context. -/
theorem c3_malformed_braces_literal {Ctx : Type} (reg : Registry Ctx) (ctx : Ctx)
    (text : List Char) (i : Nat) :
    (placeholderEnd text 0 false 0 = none →
       parsePlaceholder text = (Node.text (String.mk text), text.length))
    ∧ (placeholderEnd text 0 false 0 = some i →
       trimChars (((text.take (i + 1)).drop 1).dropLast) = [] →
       parsePlaceholder text = (Node.text (String.mk (text.take (i + 1))), i + 1))
    ∧ (engineRender reg "a\x7bb" ctx).content = "a\x7bb"
    ∧ (engineRender reg "x{}y" ctx).content = "x{}y" := by
  refine ⟨?_, ?_, ?_, ?_⟩
  · intro hn
    rw [parsePlaceholder.eq_def]
    split
    · rfl
    · next j hj => rw [hn] at hj; cases hj
  · intro hs htrim
    rw [parsePlaceholder.eq_def]
    split
    · next hj => rw [hs] at hj; cases hj
    · next j hj =>
      rw [hs] at hj
      injection hj with hij
      subst hij
      simp only [htrim, if_pos]
  · simp only [engineRender]
    rw [if_neg (by decide), lex_ab]
    simp [interpRender, renderGo, evalNode_text, emptyResult]
  · simp only [engineRender]
    rw [if_neg (by decide), lex_xbracesy]
    simp [interpRender, renderGo, evalNode_text, emptyResult]

theorem c3_malformed_braces_literal_witness :
    parsePlaceholder "\x7bb".data = (Node.text "\x7bb", 2)
    ∧ parsePlaceholder "\x7b \x7dx".data = (Node.text "\x7b \x7d", 3) := by
  constructor
  · exact (c3_malformed_braces_literal emptyReg () "\x7bb".data 0).1 (by decide)
  · exact (c3_malformed_braces_literal emptyReg () "\x7b \x7dx".data 2).2.1 (by decide) (by decide)

/-- C6: escape handling in the lexer.  A backslash immediately followed by
one of `{ } \ ; :` consumes both characters and contributes only the
escaped character to the text buffer; a backslash followed by any other
character is kept literally (the next character is processed on its own);
a backslash standing at the end of the input is kept literally; and
`render("\{literal\}")` yields content `"{literal}"` with the escaped
braces never parsed as a placeholder — for every registry and context. -/
theorem c6_escape_handling {Ctx : Type} (reg : Registry Ctx) (ctx : Ctx) (c : Char)
    (rest buffer : List Char) (acc : List Node) :
    (isSpecial c = true →
       lexGo (ESCAPE_CHAR :: c :: rest) buffer acc = lexGo rest (buffer ++ [c]) acc)
    ∧ (isSpecial c = false →
       lexGo (ESCAPE_CHAR :: c :: rest) buffer acc =
         lexGo (c :: rest) (buffer ++ [ESCAPE_CHAR]) acc)
    ∧ lexGo [ESCAPE_CHAR] buffer acc = acc ++ flushBuf (buffer ++ [ESCAPE_CHAR])
    ∧ (engineRender reg "\\\x7bliteral\\\x7d" ctx).content = "{literal}" := by
  refine ⟨?_, ?_, ?_, ?_⟩
  · intro hs
    rw [lexGo.eq_def]
    simp [hs]
  · intro hs
    rw [lexGo.eq_def]
    simp [hs]
  · rw [lexGo.eq_def]
    norm_num [ESCAPE_CHAR]
    rw [if_neg (by decide : ¬ ('\\' = '{'))]
    simp [lexGo]
  · simp only [engineRender]
    rw [if_neg (by decide), lex_escaped_literal]
    simp [interpRender, renderGo, evalNode_text, emptyResult]

theorem c6_escape_handling_witness :
    lexGo (ESCAPE_CHAR :: '{' :: []) [] [] = lexGo [] ['{'] []
    ∧ lexGo (ESCAPE_CHAR :: 'q' :: []) [] [] = lexGo ['q'] [ESCAPE_CHAR] [] := by
  constructor
  · exact (c6_escape_handling emptyReg () '{' [] [] []).1 (by decide)
  · exact (c6_escape_handling emptyReg () 'q' [] [] []).2.1 (by decide)

/-- Evaluation of the two argument groups of the nested template against
the `sum`/`concat` registry: the nested `sum` placeholder collapses to
`"3"` and the literal group to `"x"`. -/
theorem mathReg_sum_groups :
    evalGroups mathReg () emptyResult
      [[Node.placeholder "\x7bsum:1;2\x7d" "sum" [[Node.text "1"], [Node.text "2"]]],
       [Node.text "x"]] 1 = ["3", "x"] := by
  simp [evalNode, evalFnBranch, evalGroups, evalGroup, pyStr, mathReg, MAX_NESTING,
    strToNat, digitVal]
  decide

/-- C7: argument-group boundaries fixed at parse time survive to
evaluation.  The lexer keeps each semicolon-separated argument as its own
node group (`{concat:{sum:1;2};x}` parses into two groups, the `;` inside
the nested placeholder not splitting the outer list); at evaluation each
group becomes exactly one argument string, in group order; and with `sum`
and `concat` registered the nested template renders with `concat` applied
to the two arguments `"3"` and `"x"` (content `"3|x"`), never to the
single argument `"3;x"`. -/
theorem c7_argument_boundaries {Ctx : Type} (reg : Registry Ctx) (ctx : Ctx)
    (res : RenderResult) (args : List (List Node)) (depth : Nat) :
    (evalGroups reg ctx res args depth = args.map (fun g => evalGroup reg ctx res g depth))
    ∧ (lexChars "{concat:{sum:1;2};x}".data =
       [Node.placeholder "{concat:{sum:1;2};x}" "concat"
         [[Node.placeholder "{sum:1;2}" "sum" [[Node.text "1"], [Node.text "2"]]],
          [Node.text "x"]]])
    ∧ (evalGroups mathReg () emptyResult
        [[Node.placeholder "{sum:1;2}" "sum" [[Node.text "1"], [Node.text "2"]]],
         [Node.text "x"]] 1 = ["3", "x"])
    ∧ (engineRender mathReg "{concat:{sum:1;2};x}" ()).content = "3|x" := by
  refine ⟨evalGroups_eq_map reg ctx res args depth, lex_concat_nested,
    mathReg_sum_groups, ?_⟩
  simp only [engineRender]
  rw [if_neg (by decide), lex_concat_nested, interpRender, renderGo_cons]
  rw [renderGo]
  have hf : mathReg.funcs "concat"
      = some (fun _ _ args => .ok (some (joinWith "|" args))) := by
    simp [mathReg]
  rw [evalNode_fn mathReg () emptyResult "\x7bconcat:\x7bsum:1;2\x7d;x\x7d" "concat"
    [[Node.placeholder "\x7bsum:1;2\x7d" "sum" [[Node.text "1"], [Node.text "2"]]],
     [Node.text "x"]]
    0 _ (by decide) (by simp) hf]
  simp only [Nat.zero_add]
  rw [mathReg_sum_groups]
  simp [joinWith, pyStr, emptyResult]

/-- C8: splitting the arguments portion on unescaped depth-0 `;` drops
every empty segment, interior or trailing: no empty-string argument is
ever produced by `_split_arguments`; `{f:;a}` invokes `f` with exactly the
one argument `"a"` (the counting handler reports `"1:a"`), and a trailing
`;` contributes no argument. -/
theorem c8_empty_segments_dropped (argsStr t : List Char) (ht : t ∈ splitArguments argsStr) :
    t ≠ []
    ∧ lexChars "{f:;a}".data = [Node.placeholder "{f:;a}" "f" [[Node.text "a"]]]
    ∧ (engineRender countReg "{f:;a}" ()).content = "1:a"
    ∧ (engineRender countReg "{f:a;}" ()).content = "1:a" := by
  refine ⟨splitArguments_ne_nil ht, lex_semi_a, ?_, ?_⟩
  · simp only [engineRender]
    rw [if_neg (by decide), lex_semi_a]
    simp [interpRender, renderGo, evalNode, evalFnBranch, evalGroups, evalGroup, pyStr,
      emptyResult, countReg, MAX_NESTING, joinWith]
    decide
  · simp only [engineRender]
    rw [if_neg (by decide), lex_a_semi]
    simp [interpRender, renderGo, evalNode, evalFnBranch, evalGroups, evalGroup, pyStr,
      emptyResult, countReg, MAX_NESTING, joinWith]
    decide

theorem c8_empty_segments_dropped_witness :
    (['a'] : List Char) ≠ []
    ∧ (engineRender countReg "{f:;a}" ()).content = "1:a" := by
  have h := c8_empty_segments_dropped (";a".data) ['a'] (by decide)
  exact ⟨h.1, h.2.2.1⟩

/-- Concatenated raw spans of a node list, at the character level. -/
def rawsData (ns : List Node) : List Char :=
  ns.foldr (fun n acc => n.raw.data ++ acc) []

theorem rawsData_nil : rawsData [] = [] := rfl

theorem rawsData_cons (n : Node) (ns : List Node) :
    rawsData (n :: ns) = n.raw.data ++ rawsData ns := rfl

theorem rawsData_append (a b : List Node) :
    rawsData (a ++ b) = rawsData a ++ rawsData b := by
  induction a with
  | nil => rfl
  | cons n ns ih => simp [rawsData_cons, ih]

theorem rawsData_flushBuf (buffer : List Char) :
    rawsData (flushBuf buffer) = buffer := by
  unfold flushBuf
  by_cases hb : buffer = []
  · simp [hb, rawsData]
  · simp [hb, rawsData, Node.raw]

theorem parsePlaceholder_span (c : Char) (rest : List Char) :
    ((parsePlaceholder (c :: rest)).1.raw).data ++
      (rest.drop ((parsePlaceholder (c :: rest)).2 - 1)) = c :: rest := by
  rw [parsePlaceholder.eq_def]
  split
  · simp [Node.raw]
  · next j hj =>
    dsimp only
    split
    · simp [Node.raw, List.take_append_drop]
    · simp [Node.raw, List.take_append_drop]

theorem joinData (l : List String) (s : String) :
    (l.foldl (fun r t => r ++ t) s).data = s.data ++ l.foldr (fun t acc => t.data ++ acc) [] := by
  induction l generalizing s with
  | nil => simp
  | cons x xs ih => simp [ih, String.data_append]

theorem lexGo_raws :
    ∀ (n : Nat) (text buffer : List Char) (acc : List Node),
      text.length ≤ n → ESCAPE_CHAR ∉ text →
      rawsData (lexGo text buffer acc) = rawsData acc ++ buffer ++ text := by
  intro n
  induction n with
  | zero =>
    intro text buffer acc hlen hesc
    have htext : text = [] := List.eq_nil_of_length_eq_zero (Nat.le_zero.mp hlen)
    subst htext
    rw [lexGo.eq_def]
    simp [rawsData_append, rawsData_flushBuf]
  | succ n ih =>
    intro text buffer acc hlen hesc
    match text with
    | [] =>
      rw [lexGo.eq_def]
      simp [rawsData_append, rawsData_flushBuf]
    | [c] =>
      rw [lexGo.eq_def]
      dsimp only
      by_cases hc : c = '{'
      · subst hc
        rw [if_pos rfl]
        have hspan := parsePlaceholder_span '{' []
        rw [ih _ _ _ (by simp) (by simp)]
        simp only [List.drop_nil, List.append_nil] at hspan
        simp [rawsData_append, rawsData_cons, rawsData_nil, rawsData_flushBuf, hspan]
      · rw [if_neg hc]
        rw [ih _ _ _ (by simp) (by simp)]
        simp [rawsData_flushBuf]
    | c :: next :: rest2 =>
      rw [lexGo.eq_def]
      dsimp only
      have hcne : ¬ c = ESCAPE_CHAR := by
        intro hc
        exact hesc (hc ▸ List.mem_cons_self c (next :: rest2))
      rw [if_neg hcne]
      by_cases hc : c = '{'
      · rw [if_pos hc]
        have hspan := parsePlaceholder_span c (next :: rest2)
        have hdlen :
            ((next :: rest2).drop ((parsePlaceholder (c :: next :: rest2)).2 - 1)).length ≤ n := by
          have hdr := List.length_drop ((parsePlaceholder (c :: next :: rest2)).2 - 1)
            (next :: rest2)
          simp only [List.length_cons] at hdr hlen ⊢
          omega
        have hdesc :
            ESCAPE_CHAR ∉ (next :: rest2).drop ((parsePlaceholder (c :: next :: rest2)).2 - 1) := by
          intro hm
          exact hesc (List.mem_cons_of_mem c (List.drop_subset _ _ hm))
        rw [ih _ _ _ hdlen hdesc]
        simp only [rawsData_append, rawsData_cons, rawsData_nil, rawsData_flushBuf,
          List.append_nil]
        rw [List.append_assoc (rawsData acc ++ buffer), hspan]
      · rw [if_neg hc]
        have hlen2 : (next :: rest2).length ≤ n := by
          simp only [List.length_cons] at hlen ⊢
          omega
        have hesc2 : ESCAPE_CHAR ∉ (next :: rest2) := by
          intro hm
          exact hesc (List.mem_cons_of_mem c hm)
        rw [ih _ _ _ hlen2 hesc2]
        simp

theorem lexChars_raws (text : List Char) (hesc : ESCAPE_CHAR ∉ text) :
    rawsData (lexChars text) = text := by
  rw [lexChars.eq_def]
  by_cases ht : text = []
  · simp [ht, rawsData]
  · rw [if_neg ht]
    rw [lexGo_raws text.length text [] [] le_rfl hesc]
    simp [rawsData_nil]

/-- C9 (amended): for every input string containing no backslash, every
top-level node's `raw` field is exactly the original input span it was
parsed from, and concatenating the raws of `lex(text)` in order reproduces
`text` exactly.  (The original claim fails on inputs with escape
sequences: a `TextNode`'s `raw` equals its post-escape value, see the
counterexample.) -/
theorem c9_raw_concatenation (text : String) (h : ESCAPE_CHAR ∉ text.data) :
    String.join ((lexChars text.data).map Node.raw) = text := by
  have hd : (String.join ((lexChars text.data).map Node.raw)).data
      = rawsData (lexChars text.data) := by
    simp only [String.join]
    rw [joinData]
    simp only [String.data]
    rw [List.foldr_map]
    rfl
  apply String.ext
  rw [hd, lexChars_raws text.data h]

/-- C9 counterexample: on the input `backslash-{` the lexer collapses the
escape sequence, producing a single `TextNode` whose `raw` is `"{"`; the
concatenated raws do not reproduce the original text. -/
theorem c9_raw_concat_counterexample :
    String.join ((lexChars "\\\x7b".data).map Node.raw) ≠ "\\\x7b" := by
  rw [lex_backslash_brace]
  decide

theorem c9_raw_concatenation_witness :
    String.join ((lexChars "a\x7bb".data).map Node.raw) = "a\x7bb" :=
  c9_raw_concatenation "a\x7bb" (by decide)
